import Mathlib

/-!
Verification of the one-chat conversation-state subsystem.

The repository provides the client side (React Query hooks, cookie and
model-resolution utilities) and a REST API description of the Axum backend;
the backend implementation itself is not part of the source tree.  The
server-side operations (threads, messages, shares, streaming coordinator)
are therefore modelled from the specification, while the client-side
pieces (cache mutation handlers, `resolveInitialModel`, cookie utilities)
are translated directly from the source files.
-/

namespace OneChat

/-- Thread visibility.  `priv` renders the source's `"private"`, `pub` the
source's `"public"` (`private` is a Lean keyword). -/
inductive Visibility where
  | priv : Visibility
  | pub : Visibility
deriving DecidableEq, Repr

/-- Message author role (`"user" | "assistant" | "system"`). -/
inductive Role where
  | user : Role
  | assistant : Role
  | sys : Role
deriving DecidableEq, Repr

/-- Modelled from the spec: a Message row of the Persistence Store (§3).
`createdAt` is the creation timestamp, `seq` the monotonically increasing
insertion sequence number assigned at write time (§4.1 tie-break rule). -/
structure Message where
  id : Nat
  threadId : Nat
  role : Role
  content : String
  model : Option String
  createdAt : Nat
  seq : Nat
deriving DecidableEq, Repr

/-- Modelled from the spec: a Thread row of the Persistence Store (§3). -/
structure Thread where
  id : Nat
  ownerId : Nat
  title : Option String
  visibility : Visibility
  originThreadId : Option Nat
deriving DecidableEq, Repr

/-- Modelled from the spec: a ShareLink row of the Persistence Store (§3). -/
structure ShareLink where
  token : Nat
  threadId : Nat
  ownerId : Nat
  sharedUpToMessageId : Nat
deriving DecidableEq, Repr

/-- Modelled from the spec: the Persistence Store (§2).  `messages` is kept
in insertion order; `nextId` and `nextSeq` are the id / sequence counters. -/
structure Store where
  threads : List Thread
  messages : List Message
  shares : List ShareLink
  nextSeq : Nat
  nextId : Nat
deriving DecidableEq, Repr

/-- Error taxonomy of the spec (§7), restricted to the errors the claims
mention. -/
inductive Err where
  | NotFound : Err
  | Forbidden : Err
  | Conflict : Err
deriving DecidableEq, Repr

/-- Strict creation order on messages: by timestamp, ties broken by the
insertion sequence number (spec §4.1), never by id. -/
def msgLt (a b : Message) : Prop :=
  a.createdAt < b.createdAt ∨ (a.createdAt = b.createdAt ∧ a.seq < b.seq)

/-- Reflexive creation order on messages. -/
def msgLe (a b : Message) : Prop :=
  a.createdAt < b.createdAt ∨ (a.createdAt = b.createdAt ∧ a.seq ≤ b.seq)

instance : DecidableRel msgLt := fun a b => by unfold msgLt; infer_instance

instance : DecidableRel msgLe := fun a b => by unfold msgLe; infer_instance

/-- Boolean form of `msgLt`, used inside executable operations. -/
def msgLtB (a b : Message) : Bool :=
  a.createdAt < b.createdAt || (a.createdAt == b.createdAt && a.seq < b.seq)

/-- Boolean form of `msgLe`, used inside executable operations. -/
def msgLeB (a b : Message) : Bool :=
  a.createdAt < b.createdAt || (a.createdAt == b.createdAt && a.seq ≤ b.seq)

/-- Modelled from the spec: well-formedness of the Persistence Store.
Messages are stored in creation order (timestamps non-decreasing, sequence
numbers strictly increasing), ids are unique and below the id counter, and
every ShareLink references an existing thread and a cutoff message of that
thread (§3 invariants). -/
def Store.WF (s : Store) : Prop :=
  s.messages.Pairwise (fun a b => a.createdAt ≤ b.createdAt ∧ a.seq < b.seq)
  ∧ (s.messages.map Message.id).Nodup
  ∧ (∀ m ∈ s.messages, m.id < s.nextId)
  ∧ (∀ m ∈ s.messages, m.seq < s.nextSeq)
  ∧ (∀ sh ∈ s.shares, ∃ t ∈ s.threads, t.id = sh.threadId)
  ∧ (∀ sh ∈ s.shares, ∃ m ∈ s.messages, m.id = sh.sharedUpToMessageId ∧ m.threadId = sh.threadId)
  ∧ (s.shares.map ShareLink.token).Nodup

instance (s : Store) : Decidable s.WF := by unfold Store.WF; infer_instance

/-- Modelled from the spec: `getThread(requesterId, threadId)` (§4.1).
`NotFound` if missing, `Forbidden` if private and requester is not the
owner. -/
def getThread (req tid : Nat) (s : Store) : Except Err Thread :=
  match s.threads.find? (fun t => t.id == tid) with
  | none => .error .NotFound
  | some t =>
    if t.visibility == .priv && req != t.ownerId then .error .Forbidden
    else .ok t

/-- Modelled from the spec: `setVisibility(ownerId, threadId, visibility)`
(§4.1).  Fails with `Forbidden` if not owner; returns the updated store and
thread. -/
def setVisibility (owner tid : Nat) (v : Visibility) (s : Store) :
    Except Err (Store × Thread) :=
  match s.threads.find? (fun t => t.id == tid) with
  | none => .error .NotFound
  | some t =>
    if owner != t.ownerId then .error .Forbidden
    else
      .ok ({s with threads :=
              s.threads.map (fun u => if u.id == tid then {u with visibility := v} else u)},
           {t with visibility := v})

/-- The messages of a thread in storage (insertion) order. -/
def listMessagesRaw (tid : Nat) (s : Store) : List Message :=
  s.messages.filter (fun m => m.threadId == tid)

/-- Modelled from the spec: `listMessages(requesterId, threadId)` (§4.1),
ordered by creation time ascending with the §4.1 sequence-number
tie-break; same access rule as `getThread`. -/
def listMessages (req tid : Nat) (s : Store) : Except Err (List Message) :=
  match s.threads.find? (fun t => t.id == tid) with
  | none => .error .NotFound
  | some t =>
    if t.visibility == .priv && req != t.ownerId then .error .Forbidden
    else .ok (List.insertionSort msgLe (listMessagesRaw tid s))

/-- Modelled from the spec: `postMessage(requesterId, threadId, ...)`
(§4.1).  Appends at the end of the order; the new message receives the next
insertion sequence number and id. -/
def postMessage (req tid : Nat) (role : Role) (content : String)
    (model : Option String) (now : Nat) (s : Store) : Except Err (Store × Message) :=
  match s.threads.find? (fun t => t.id == tid) with
  | none => .error .NotFound
  | some t =>
    if req != t.ownerId then .error .Forbidden
    else
      let m : Message := ⟨s.nextId, tid, role, content, model, now, s.nextSeq⟩
      .ok ({s with messages := s.messages ++ [m],
                   nextSeq := s.nextSeq + 1,
                   nextId := s.nextId + 1}, m)

/-- The messages `deleteTrailing` removes when called on `m`: messages of
the same thread strictly after `m`, plus `m` itself when `inclusive`. -/
def trailingPred (m : Message) (inclusive : Bool) (x : Message) : Bool :=
  x.threadId == m.threadId && (msgLtB m x || (inclusive && x.id == m.id))

/-- Modelled from the spec: `deleteTrailing(ownerId, messageId, inclusive)`
(§4.1).  Deletes all messages of the same thread with creation order
strictly greater than the given message's order, the message itself as well
when `inclusive`; returns the updated store and the number deleted. -/
def deleteTrailing (owner mid : Nat) (inclusive : Bool) (s : Store) :
    Except Err (Store × Nat) :=
  match s.messages.find? (fun x => x.id == mid) with
  | none => .error .NotFound
  | some m =>
    match s.threads.find? (fun t => t.id == m.threadId) with
    | none => .error .NotFound
    | some t =>
      if owner != t.ownerId then .error .Forbidden
      else
        .ok ({s with messages := s.messages.filter (fun x => !(trailingPred m inclusive x))},
             (s.messages.filter (fun x => trailingPred m inclusive x)).length)

/-- Copies of a message prefix for `branchThread`: fresh consecutive ids and
sequence numbers, the new thread id, the branch timestamp; content, role and
model are preserved, and so is the relative order. -/
def copyMsgs (newTid idBase seqBase now : Nat) : List Message → List Message
  | [] => []
  | x :: xs =>
      {x with id := idBase, threadId := newTid, seq := seqBase, createdAt := now}
        :: copyMsgs newTid (idBase + 1) (seqBase + 1) now xs

/-- Modelled from the spec: `branchThread(requesterId, originalThreadId,
anchorMessageId, suggestedNewId)` (§4.1).  Requires read access to the
original thread, fails with `NotFound` if the anchor message is absent, and
otherwise creates a new thread with `originThreadId` pointing at the source
thread, copying every message with creation order ≤ the anchor's order. -/
def branchThread (req origTid anchorMid newTid now : Nat) (s : Store) :
    Except Err (Store × Thread) :=
  match s.threads.find? (fun t => t.id == origTid) with
  | none => .error .NotFound
  | some t =>
    if t.visibility == .priv && req != t.ownerId then .error .Forbidden
    else
      match s.messages.find? (fun x => x.id == anchorMid && x.threadId == origTid) with
      | none => .error .NotFound
      | some anchor =>
        let toCopy := s.messages.filter (fun x => x.threadId == origTid && msgLeB x anchor)
        let nt : Thread := ⟨newTid, req, t.title, .priv, some origTid⟩
        .ok ({s with threads := s.threads ++ [nt],
                     messages := s.messages ++ copyMsgs newTid s.nextId s.nextSeq now toCopy,
                     nextId := s.nextId + toCopy.length,
                     nextSeq := s.nextSeq + toCopy.length}, nt)

/-- Modelled from the spec: `deleteThread(ownerId, threadId)` (§4.1).
Fails with `Forbidden` if not owner; cascades to delete all Messages and
ShareLinks of the thread; a second call fails with `NotFound`. -/
def deleteThread (owner tid : Nat) (s : Store) : Except Err Store :=
  match s.threads.find? (fun t => t.id == tid) with
  | none => .error .NotFound
  | some t =>
    if owner != t.ownerId then .error .Forbidden
    else
      .ok {s with threads := s.threads.filter (fun u => !(u.id == tid)),
                  messages := s.messages.filter (fun m => !(m.threadId == tid)),
                  shares := s.shares.filter (fun sh => !(sh.threadId == tid))}

/-- Modelled from the spec: `resolveShare(token)` (§4.3).  No requester
argument: the endpoint is unauthenticated.  Fails with `NotFound` if the
token names no ShareLink; otherwise returns the thread together with the
messages whose creation order is ≤ the shared cutoff, ascending. -/
def resolveShare (token : Nat) (s : Store) : Except Err (Thread × List Message) :=
  match s.shares.find? (fun sh => sh.token == token) with
  | none => .error .NotFound
  | some sh =>
    match s.threads.find? (fun t => t.id == sh.threadId) with
    | none => .error .NotFound
    | some t =>
      match s.messages.find? (fun x => x.id == sh.sharedUpToMessageId && x.threadId == sh.threadId) with
      | none => .error .NotFound
      | some cutoff =>
        .ok (t, List.insertionSort msgLe
              (s.messages.filter (fun x => x.threadId == sh.threadId && msgLeB x cutoff)))

/-! ### Helper lemmas about the store operations -/

/-- Updating the visibility of the thread `tid` leaves it findable, with
only the visibility changed. -/
theorem find?_visibilityMap {l : List Thread} {tid : Nat} {t : Thread} (v : Visibility)
    (h : l.find? (fun u => u.id == tid) = some t) :
    (l.map (fun u => if u.id == tid then {u with visibility := v} else u)).find?
        (fun u => u.id == tid) = some {t with visibility := v} := by
  induction l with
  | nil => simp at h
  | cons a l ih =>
    by_cases ha : a.id = tid
    · have h1 : a = t := by
        rw [List.find?_cons_of_pos _ (by simp [ha])] at h
        exact Option.some.inj h
      subst h1
      simp only [List.map_cons, if_pos (by simp [ha] : (a.id == tid) = true)]
      exact List.find?_cons_of_pos _ (by simp [ha])
    · rw [List.find?_cons_of_neg _ (by simp [ha])] at h
      simp only [List.map_cons, if_neg (by simp [ha] : ¬(a.id == tid) = true)]
      rw [List.find?_cons_of_neg _ (by simp [ha])]
      exact ih h

/-- `setVisibility` by the owner succeeds and rewrites the visibility of
the thread. -/
theorem setVisibility_eq (owner tid : Nat) (v : Visibility) (s : Store) (t : Thread)
    (hfind : s.threads.find? (fun u => u.id == tid) = some t)
    (howner : t.ownerId = owner) :
    setVisibility owner tid v s =
      .ok ({s with threads :=
              s.threads.map (fun u => if u.id == tid then {u with visibility := v} else u)},
           {t with visibility := v}) := by
  rw [setVisibility, hfind]
  simp [howner]

/-- C6: after the owner makes a thread public, `getThread` by a different
requester succeeds and returns the thread; after the owner then makes it
private again, the same `getThread` call fails with `Forbidden`. -/
theorem C6_visibility_roundtrip (s : Store) (owner tid req : Nat) (t : Thread)
    (hfind : s.threads.find? (fun u => u.id == tid) = some t)
    (howner : t.ownerId = owner) (hreq : req ≠ owner) :
    ∃ s1 t1, setVisibility owner tid .pub s = .ok (s1, t1)
      ∧ getThread req tid s1 = .ok t1
      ∧ ∃ s2 t2, setVisibility owner tid .priv s1 = .ok (s2, t2)
        ∧ getThread req tid s2 = .error .Forbidden := by
  have hfind1 := find?_visibilityMap Visibility.pub hfind
  refine ⟨_, _, setVisibility_eq owner tid .pub s t hfind howner, ?_, ?_⟩
  · rw [getThread, hfind1]
    simp
  · have hfind2 := find?_visibilityMap Visibility.priv hfind1
    refine ⟨_, _, setVisibility_eq owner tid .priv _ _ hfind1 howner, ?_⟩
    rw [getThread, hfind2]
    simp [howner, hreq]

/-- Concrete instantiation of `C6_visibility_roundtrip`: a private thread
`1` owned by user `10`, requester `20`. -/
theorem C6_visibility_roundtrip_witness :
    (let s : Store := ⟨[⟨1, 10, none, .priv, none⟩], [], [], 0, 0⟩
     ∃ s1 t1, setVisibility 10 1 .pub s = .ok (s1, t1)
       ∧ getThread 20 1 s1 = .ok t1
       ∧ ∃ s2 t2, setVisibility 10 1 .priv s1 = .ok (s2, t2)
         ∧ getThread 20 1 s2 = .error .Forbidden) :=
  C6_visibility_roundtrip _ 10 1 20 ⟨1, 10, none, .priv, none⟩
    (by decide) (by decide) (by decide)

/-- C5: `deleteThread` by the owner succeeds, cascades to delete every
Message and ShareLink of the thread (so `getThread` and resolution of any
of the thread's share tokens afterwards return `NotFound`), a second call
on the same id fails with `NotFound`, and a call by a non-owner fails with
`Forbidden`. -/
theorem C5_deleteThread_cascade (s : Store) (owner tid : Nat) (t : Thread)
    (hWF : s.WF)
    (hfind : s.threads.find? (fun u => u.id == tid) = some t)
    (howner : t.ownerId = owner) :
    ∃ s', deleteThread owner tid s = .ok s'
      ∧ (∀ m ∈ s'.messages, m.threadId ≠ tid)
      ∧ (∀ sh ∈ s'.shares, sh.threadId ≠ tid)
      ∧ (∀ req, getThread req tid s' = .error .NotFound)
      ∧ (∀ sh ∈ s.shares, sh.threadId = tid → resolveShare sh.token s' = .error .NotFound)
      ∧ deleteThread owner tid s' = .error .NotFound
      ∧ (∀ other, other ≠ owner → deleteThread other tid s = .error .Forbidden) := by
  have hdel : deleteThread owner tid s =
      .ok {s with threads := s.threads.filter (fun u => !(u.id == tid)),
                  messages := s.messages.filter (fun m => !(m.threadId == tid)),
                  shares := s.shares.filter (fun sh => !(sh.threadId == tid))} := by
    rw [deleteThread, hfind]
    simp [howner]
  have hnothread : (s.threads.filter (fun u => !(u.id == tid))).find?
      (fun u => u.id == tid) = none := by
    rw [List.find?_eq_none]
    intro x hx
    simp only [List.mem_filter] at hx
    simpa using hx.2
  refine ⟨_, hdel, ?_, ?_, ?_, ?_, ?_, ?_⟩
  · intro m hm
    simp only [List.mem_filter] at hm
    simpa using hm.2
  · intro sh hsh
    simp only [List.mem_filter] at hsh
    simpa using hsh.2
  · intro req
    rw [getThread]
    rw [hnothread]
  · intro sh hsh htid
    rw [resolveShare]
    have : (s.shares.filter (fun u => !(u.threadId == tid))).find?
        (fun u => u.token == sh.token) = none := by
      rw [List.find?_eq_none]
      intro sh2 hsh2
      simp only [List.mem_filter] at hsh2
      intro htok
      have heq : sh2 = sh :=
        List.inj_on_of_nodup_map hWF.2.2.2.2.2.2 hsh2.1 hsh (by simpa using htok)
      rw [heq] at hsh2
      simp [htid] at hsh2
    rw [this]
  · rw [deleteThread]
    rw [hnothread]
  · intro other hother
    rw [deleteThread, hfind]
    simp [howner, hother]

/-- Concrete instantiation of `C5_deleteThread_cascade`: thread `1` owned
by user `10` with one message and one share link. -/
theorem C5_deleteThread_cascade_witness :
    (let s : Store := ⟨[⟨1, 10, none, .priv, none⟩],
                       [⟨0, 1, .user, "hi", none, 5, 0⟩],
                       [⟨99, 1, 10, 0⟩], 1, 1⟩
     ∃ s', deleteThread 10 1 s = .ok s'
       ∧ (∀ m ∈ s'.messages, m.threadId ≠ 1)
       ∧ (∀ sh ∈ s'.shares, sh.threadId ≠ 1)
       ∧ (∀ req, getThread req 1 s' = .error .NotFound)
       ∧ (∀ sh ∈ s.shares, sh.threadId = 1 → resolveShare sh.token s' = .error .NotFound)
       ∧ deleteThread 10 1 s' = .error .NotFound
       ∧ (∀ other, other ≠ 10 → deleteThread other 1 s = .error .Forbidden)) :=
  C5_deleteThread_cascade _ 10 1 ⟨1, 10, none, .priv, none⟩
    (by decide) (by decide) (by decide)

/-- `trailingPred` spelled out as a proposition. -/
theorem trailingPred_iff (m x : Message) (inclusive : Bool) :
    trailingPred m inclusive x = true ↔
      x.threadId = m.threadId ∧ (msgLt m x ∨ (inclusive = true ∧ x.id = m.id)) := by
  simp [trailingPred, msgLtB, msgLt, Bool.and_eq_true, Bool.or_eq_true]

/-- `trailingPred` never selects a message strictly before itself, and
selects `m` itself exactly when `inclusive`. -/
theorem trailingPred_self (m : Message) (inclusive : Bool) :
    trailingPred m inclusive m = inclusive := by
  cases inclusive <;> simp [trailingPred, msgLtB]

/-- C1: `deleteTrailing(ownerId, m, inclusive)` deletes exactly the
messages of `m`'s thread with creation order strictly greater than `m`'s
(`m` itself as well if and only if `inclusive`), leaves every other message
untouched, and returns the number of messages deleted. -/
theorem C1_deleteTrailing_spec (s : Store) (owner mid : Nat) (inclusive : Bool)
    (m : Message) (t : Thread) (hWF : s.WF)
    (hm : s.messages.find? (fun x => x.id == mid) = some m)
    (ht : s.threads.find? (fun u => u.id == m.threadId) = some t)
    (howner : t.ownerId = owner) :
    ∃ s' n, deleteTrailing owner mid inclusive s = .ok (s', n)
      ∧ (∀ x ∈ s.messages,
          (x ∈ s'.messages ↔ ¬(x.threadId = m.threadId ∧ (msgLt m x ∨ (inclusive = true ∧ x = m)))))
      ∧ (m ∈ s'.messages ↔ inclusive = false)
      ∧ n + s'.messages.length = s.messages.length := by
  have hmem : m ∈ s.messages := List.mem_of_find?_eq_some hm
  have hdel : deleteTrailing owner mid inclusive s =
      .ok ({s with messages := s.messages.filter (fun x => !(trailingPred m inclusive x))},
           (s.messages.filter (fun x => trailingPred m inclusive x)).length) := by
    rw [deleteTrailing, hm]
    simp [ht, howner]
  refine ⟨_, _, hdel, ?_, ?_, ?_⟩
  · intro x hx
    have hid : x.id = m.id ↔ x = m := by
      constructor
      · intro h
        exact List.inj_on_of_nodup_map hWF.2.1 hx hmem h
      · intro h
        rw [h]
    simp only [List.mem_filter, hx, true_and, Bool.not_eq_true',
      ← Bool.not_eq_true (trailingPred m inclusive x), trailingPred_iff, hid]
  · cases inclusive <;> simp [List.mem_filter, hmem, trailingPred_self]
  · have := List.length_eq_length_filter_add (l := s.messages)
      (fun x => trailingPred m inclusive x)
    simpa using this.symm

/-- Concrete instantiation of `C1_deleteTrailing_spec`: the spec's
`[A,B,C,D]` example, deleting from `B` exclusively. -/
theorem C1_deleteTrailing_spec_witness :
    (let mA : Message := ⟨0, 1, .user, "A", none, 1, 0⟩
     let mB : Message := ⟨1, 1, .assistant, "B", none, 2, 1⟩
     let mC : Message := ⟨2, 1, .user, "C", none, 3, 2⟩
     let mD : Message := ⟨3, 1, .assistant, "D", none, 4, 3⟩
     let s : Store := ⟨[⟨1, 10, none, .priv, none⟩], [mA, mB, mC, mD], [], 4, 4⟩
     ∃ s' n, deleteTrailing 10 1 false s = .ok (s', n)
       ∧ (∀ x ∈ s.messages,
           (x ∈ s'.messages ↔ ¬(x.threadId = mB.threadId ∧ (msgLt mB x ∨ (false = true ∧ x = mB)))))
       ∧ (mB ∈ s'.messages ↔ false = false)
       ∧ n + s'.messages.length = s.messages.length) :=
  C1_deleteTrailing_spec _ 10 1 false ⟨1, 1, .assistant, "B", none, 2, 1⟩
    ⟨1, 10, none, .priv, none⟩ (by decide) (by decide) (by decide) (by decide)

/-- In a well-formed store any filtered selection of the message list keeps
the pairwise creation-order discipline. -/
theorem pairwise_filter_of_WF (s : Store) (hWF : s.WF) (p : Message → Bool) :
    (s.messages.filter p).Pairwise
      (fun a b => a.createdAt ≤ b.createdAt ∧ a.seq < b.seq) :=
  List.Pairwise.sublist (List.filter_sublist _) hWF.1

/-- The well-formedness discipline implies the reflexive creation order. -/
theorem msgLe_of_wfRel {a b : Message}
    (h : a.createdAt ≤ b.createdAt ∧ a.seq < b.seq) : msgLe a b := by
  rcases Nat.lt_or_ge a.createdAt b.createdAt with hlt | hge
  · exact Or.inl hlt
  · exact Or.inr ⟨Nat.le_antisymm h.1 hge, Nat.le_of_lt h.2⟩

/-- The well-formedness discipline implies the strict creation order. -/
theorem msgLt_of_wfRel {a b : Message}
    (h : a.createdAt ≤ b.createdAt ∧ a.seq < b.seq) : msgLt a b := by
  rcases Nat.lt_or_ge a.createdAt b.createdAt with hlt | hge
  · exact Or.inl hlt
  · exact Or.inr ⟨Nat.le_antisymm h.1 hge, h.2⟩

/-- C7: on a well-formed store `listMessages` returns exactly the thread's
messages in insertion order — which is strictly increasing creation order,
ties on equal timestamps broken by the insertion sequence number and never
by id — and appending a message through `postMessage` with any timestamp
not before the existing ones keeps the store well-formed, so reading back
after inserting preserves the relative order. -/
theorem C7_listMessages_order (s : Store) (hWF : s.WF) (req tid : Nat) (l : List Message)
    (h : listMessages req tid s = .ok l) :
    l = s.messages.filter (fun m => m.threadId == tid)
    ∧ l.Pairwise msgLt
    ∧ (∀ role content model now s2 msg,
        (∀ x ∈ s.messages, x.createdAt ≤ now) →
        postMessage req tid role content model now s = .ok (s2, msg) →
        s2.WF ∧ s2.messages = s.messages ++ [msg]) := by
  have hraw := pairwise_filter_of_WF s hWF (fun m => m.threadId == tid)
  have hsorted : List.Sorted msgLe (s.messages.filter (fun m => m.threadId == tid)) :=
    hraw.imp msgLe_of_wfRel
  have hl : l = s.messages.filter (fun m => m.threadId == tid) := by
    rw [listMessages] at h
    split at h
    · simp at h
    · split at h
      · simp at h
      · have := Except.ok.inj h
        rw [← this, listMessagesRaw, hsorted.insertionSort_eq]
  refine ⟨hl, by rw [hl]; exact hraw.imp msgLt_of_wfRel, ?_⟩
  intro role content model now s2 msg hnow hpost
  rw [postMessage] at hpost
  split at hpost
  · simp at hpost
  · split at hpost
    · simp at hpost
    · have hpair := Except.ok.inj hpost
      have hs2 : s2 = {s with
          messages := s.messages ++ [⟨s.nextId, tid, role, content, model, now, s.nextSeq⟩],
          nextSeq := s.nextSeq + 1, nextId := s.nextId + 1} :=
        (congrArg Prod.fst hpair).symm
      have hmsg : msg = ⟨s.nextId, tid, role, content, model, now, s.nextSeq⟩ :=
        (congrArg Prod.snd hpair).symm
      subst hs2 hmsg
      refine ⟨⟨?_, ?_, ?_, ?_, ?_, ?_, ?_⟩, rfl⟩
      · rw [List.pairwise_append]
        refine ⟨hWF.1, by simp, ?_⟩
        intro a ha b hb
        simp only [List.mem_singleton] at hb
        subst hb
        exact ⟨hnow a ha, hWF.2.2.2.1 a ha⟩
      · rw [List.map_append, List.nodup_append]
        refine ⟨hWF.2.1, by simp, ?_⟩
        intro x hx
        simp only [List.map_cons, List.map_nil, List.mem_singleton]
        intro hmem
        rw [hmem] at hx
        simp only [List.mem_map] at hx
        obtain ⟨y, hy, hyid⟩ := hx
        exact Nat.lt_irrefl _ (hyid ▸ hWF.2.2.1 y hy)
      · intro x hx
        rcases List.mem_append.mp hx with hx | hx
        · exact Nat.lt_trans (hWF.2.2.1 x hx) (Nat.lt_succ_self _)
        · simp only [List.mem_singleton] at hx
          rw [hx]
          exact Nat.lt_succ_self _
      · intro x hx
        rcases List.mem_append.mp hx with hx | hx
        · exact Nat.lt_trans (hWF.2.2.2.1 x hx) (Nat.lt_succ_self _)
        · simp only [List.mem_singleton] at hx
          rw [hx]
          exact Nat.lt_succ_self _
      · exact hWF.2.2.2.2.1
      · intro sh hsh
        obtain ⟨m, hm, hprop⟩ := hWF.2.2.2.2.2.1 sh hsh
        exact ⟨m, List.mem_append_left _ hm, hprop⟩
      · exact hWF.2.2.2.2.2.2

/-- Concrete instantiation of `C7_listMessages_order`: two messages share
the timestamp `7`; their ids (`5` then `3`) are in the reverse of lexical
order, yet read-back keeps the insertion-sequence order. -/
theorem C7_listMessages_order_witness :
    (let m5 : Message := ⟨5, 1, .user, "x", none, 7, 0⟩
     let m3 : Message := ⟨3, 1, .assistant, "y", none, 7, 1⟩
     let s : Store := ⟨[⟨1, 10, none, .priv, none⟩], [m5, m3], [], 2, 6⟩
     [m5, m3] = s.messages.filter (fun m => m.threadId == 1)
     ∧ List.Pairwise msgLt [m5, m3]
     ∧ (∀ role content model now s2 msg,
         (∀ x ∈ s.messages, x.createdAt ≤ now) →
         postMessage 10 1 role content model now s = .ok (s2, msg) →
         s2.WF ∧ s2.messages = s.messages ++ [msg])) :=
  C7_listMessages_order _ (by decide) 10 1 _ rfl

/-- Every copy produced by `copyMsgs` lives in the new thread, has an id at
or above the id base and a sequence number at or above the sequence base,
and carries the branch timestamp. -/
theorem copyMsgs_fields (newTid idBase seqBase now : Nat) (l : List Message) :
    ∀ c ∈ copyMsgs newTid idBase seqBase now l,
      c.threadId = newTid ∧ idBase ≤ c.id ∧ seqBase ≤ c.seq ∧ c.createdAt = now := by
  induction l generalizing idBase seqBase with
  | nil => intro c hc; simp [copyMsgs] at hc
  | cons x xs ih =>
    intro c hc
    rw [copyMsgs] at hc
    rcases List.mem_cons.mp hc with hc | hc
    · subst hc
      exact ⟨rfl, Nat.le_refl _, Nat.le_refl _, rfl⟩
    · obtain ⟨h1, h2, h3, h4⟩ := ih (idBase + 1) (seqBase + 1) c hc
      exact ⟨h1, Nat.le_of_lt (Nat.lt_of_succ_le h2), Nat.le_of_lt (Nat.lt_of_succ_le h3), h4⟩

/-- `copyMsgs` preserves content and role, in order. -/
theorem copyMsgs_map_content_role (newTid idBase seqBase now : Nat) (l : List Message) :
    (copyMsgs newTid idBase seqBase now l).map (fun c => (c.content, c.role))
      = l.map (fun m => (m.content, m.role)) := by
  induction l generalizing idBase seqBase with
  | nil => rfl
  | cons x xs ih => simp only [copyMsgs, List.map_cons, ih]

/-- The copies are strictly increasing in creation order: equal timestamps,
strictly increasing sequence numbers. -/
theorem copyMsgs_pairwise (newTid idBase seqBase now : Nat) (l : List Message) :
    (copyMsgs newTid idBase seqBase now l).Pairwise msgLt := by
  induction l generalizing idBase seqBase with
  | nil => exact List.Pairwise.nil
  | cons x xs ih =>
    rw [copyMsgs]
    refine List.Pairwise.cons ?_ (ih (idBase + 1) (seqBase + 1))
    intro c hc
    obtain ⟨-, -, h3, h4⟩ := copyMsgs_fields newTid (idBase + 1) (seqBase + 1) now xs c hc
    exact Or.inr ⟨h4.symm, Nat.lt_of_succ_le h3⟩

/-- C2: `branchThread` creates a new thread owned by the requester with
`originThreadId` pointing at the source thread, containing copies — fresh
ids, same content and role, same relative order — of exactly the messages
whose creation order is ≤ the anchor's; it fails with `NotFound` when the
anchor message is absent from the original thread. -/
theorem C2_branchThread_spec (s : Store) (req origTid anchorMid newTid now : Nat)
    (hWF : s.WF)
    (hfreshM : ∀ x ∈ s.messages, x.threadId ≠ newTid) :
    (∀ t anchor, s.threads.find? (fun u => u.id == origTid) = some t →
      ¬(t.visibility == Visibility.priv && req != t.ownerId) = true →
      s.messages.find? (fun x => x.id == anchorMid && x.threadId == origTid) = some anchor →
      ∃ s' nt, branchThread req origTid anchorMid newTid now s = .ok (s', nt)
        ∧ nt.ownerId = req ∧ nt.originThreadId = some origTid ∧ nt.id = newTid
        ∧ nt ∈ s'.threads
        ∧ (s'.messages.filter (fun x => x.threadId == newTid)).map (fun c => (c.content, c.role))
            = (s.messages.filter (fun x => x.threadId == origTid && msgLeB x anchor)).map
                (fun m => (m.content, m.role))
        ∧ (s'.messages.filter (fun x => x.threadId == newTid)).Pairwise msgLt
        ∧ (∀ c ∈ s'.messages.filter (fun x => x.threadId == newTid),
            ∀ old ∈ s.messages, c.id ≠ old.id))
    ∧ (∀ t, s.threads.find? (fun u => u.id == origTid) = some t →
        ¬(t.visibility == Visibility.priv && req != t.ownerId) = true →
        s.messages.find? (fun x => x.id == anchorMid && x.threadId == origTid) = none →
        branchThread req origTid anchorMid newTid now s = .error .NotFound) := by
  constructor
  · intro t anchor hfind hacc hanchor
    have hok : branchThread req origTid anchorMid newTid now s =
        .ok ({s with
                threads := s.threads ++ [⟨newTid, req, t.title, .priv, some origTid⟩],
                messages := s.messages ++ copyMsgs newTid s.nextId s.nextSeq now
                  (s.messages.filter (fun x => x.threadId == origTid && msgLeB x anchor)),
                nextId := s.nextId +
                  (s.messages.filter (fun x => x.threadId == origTid && msgLeB x anchor)).length,
                nextSeq := s.nextSeq +
                  (s.messages.filter (fun x => x.threadId == origTid && msgLeB x anchor)).length},
             ⟨newTid, req, t.title, .priv, some origTid⟩) := by
      rw [branchThread, hfind]
      dsimp only
      rw [if_neg hacc, hanchor]
    have hfilter : (s.messages ++ copyMsgs newTid s.nextId s.nextSeq now
          (s.messages.filter (fun x => x.threadId == origTid && msgLeB x anchor))).filter
            (fun x => x.threadId == newTid)
        = copyMsgs newTid s.nextId s.nextSeq now
            (s.messages.filter (fun x => x.threadId == origTid && msgLeB x anchor)) := by
      rw [List.filter_append]
      rw [List.filter_eq_nil_iff.mpr (by intro a ha; simpa using hfreshM a ha)]
      rw [List.nil_append]
      rw [List.filter_eq_self.mpr ?_]
      intro c hc
      simpa using (copyMsgs_fields _ _ _ _ _ c hc).1
    refine ⟨_, _, hok, rfl, rfl, rfl,
      List.mem_append_right _ (List.mem_singleton.mpr rfl), ?_, ?_, ?_⟩
    · rw [hfilter, copyMsgs_map_content_role]
    · rw [hfilter]
      exact copyMsgs_pairwise _ _ _ _ _
    · intro c hc old hold
      rw [hfilter] at hc
      have hge := (copyMsgs_fields _ _ _ _ _ c hc).2.1
      have hlt := hWF.2.2.1 old hold
      omega
  · intro t hfind hacc hanchor
    rw [branchThread, hfind]
    dsimp only
    rw [if_neg hacc, hanchor]

/-- Concrete instantiation of `C2_branchThread_spec`: branching `[A,B,C,D]`
at anchor `C` into the fresh thread `50` succeeds and copies `[A,B,C]`. -/
theorem C2_branchThread_spec_witness :
    (let s : Store := ⟨[⟨1, 10, none, .priv, none⟩],
                       [⟨0, 1, .user, "A", none, 1, 0⟩, ⟨1, 1, .assistant, "B", none, 2, 1⟩,
                        ⟨2, 1, .user, "C", none, 3, 2⟩, ⟨3, 1, .assistant, "D", none, 4, 3⟩],
                       [], 4, 4⟩
     ∃ s' nt, branchThread 10 1 2 50 9 s = .ok (s', nt)
       ∧ nt.ownerId = 10 ∧ nt.originThreadId = some 1 ∧ nt.id = 50
       ∧ nt ∈ s'.threads
       ∧ (s'.messages.filter (fun x => x.threadId == 50)).map (fun c => (c.content, c.role))
           = (s.messages.filter
               (fun x => x.threadId == 1 && msgLeB x ⟨2, 1, .user, "C", none, 3, 2⟩)).map
               (fun m => (m.content, m.role))
       ∧ (s'.messages.filter (fun x => x.threadId == 50)).Pairwise msgLt
       ∧ (∀ c ∈ s'.messages.filter (fun x => x.threadId == 50),
           ∀ old ∈ s.messages, c.id ≠ old.id)) :=
  (C2_branchThread_spec _ 10 1 2 50 9 (by decide) (by decide)).1
    ⟨1, 10, none, .priv, none⟩ ⟨2, 1, .user, "C", none, 3, 2⟩
    (by decide) (by decide) (by decide)

/-- Boolean and propositional creation order agree. -/
theorem msgLeB_iff (a b : Message) : msgLeB a b = true ↔ msgLe a b := by
  simp [msgLeB, msgLe]

/-- A satisfied predicate makes `find?` return something. -/
theorem find?_isSome_of_exists {α : Type} (p : α → Bool) (l : List α)
    (h : ∃ x ∈ l, p x = true) : ∃ y, l.find? p = some y := by
  cases hf : l.find? p with
  | none =>
    rw [List.find?_eq_none] at hf
    obtain ⟨x, hx, hpx⟩ := h
    exact absurd hpx (hf x hx)
  | some y => exact ⟨y, rfl⟩

/-- On a well-formed store, a found share resolves to the thread and the
prefix of messages up to the share's cutoff. -/
theorem resolveShare_found (s : Store) (token : Nat) (hWF : s.WF) (sh : ShareLink)
    (hfind : s.shares.find? (fun u => u.token == token) = some sh) :
    ∃ t cutoff,
      s.threads.find? (fun u => u.id == sh.threadId) = some t
      ∧ s.messages.find?
          (fun x => x.id == sh.sharedUpToMessageId && x.threadId == sh.threadId) = some cutoff
      ∧ resolveShare token s =
          .ok (t, s.messages.filter (fun x => x.threadId == sh.threadId && msgLeB x cutoff)) := by
  have hmem := List.mem_of_find?_eq_some hfind
  obtain ⟨t0, ht0, htid⟩ := hWF.2.2.2.2.1 sh hmem
  obtain ⟨t, ht⟩ := find?_isSome_of_exists (fun u => u.id == sh.threadId) s.threads
      ⟨t0, ht0, by simp [htid]⟩
  obtain ⟨m0, hm0, h1, h2⟩ := hWF.2.2.2.2.2.1 sh hmem
  obtain ⟨c, hc⟩ := find?_isSome_of_exists
      (fun x => x.id == sh.sharedUpToMessageId && x.threadId == sh.threadId) _
      ⟨m0, hm0, by simp [h1, h2]⟩
  have hsorted : List.Sorted msgLe
      (s.messages.filter (fun x => x.threadId == sh.threadId && msgLeB x c)) :=
    (pairwise_filter_of_WF s hWF _).imp msgLe_of_wfRel
  refine ⟨t, c, ht, hc, ?_⟩
  rw [resolveShare, hfind]
  dsimp only
  rw [ht]
  dsimp only
  rw [hc]
  dsimp only
  rw [hsorted.insertionSort_eq]

/-- C3: `resolveShare(token)` fails with `NotFound` exactly when the token
names no existing ShareLink; otherwise — with no requester argument at all,
the endpoint being unauthenticated — it returns the thread together with
exactly the messages whose creation order is ≤ the share's cutoff message,
in ascending creation order. -/
theorem C3_resolveShare_spec (s : Store) (token : Nat) (hWF : s.WF) :
    ((∀ sh ∈ s.shares, sh.token ≠ token) ↔ resolveShare token s = .error .NotFound)
    ∧ (∀ sh, s.shares.find? (fun u => u.token == token) = some sh →
        ∃ t cutoff msgs, resolveShare token s = .ok (t, msgs)
          ∧ s.threads.find? (fun u => u.id == sh.threadId) = some t
          ∧ t.id = sh.threadId
          ∧ s.messages.find?
              (fun x => x.id == sh.sharedUpToMessageId && x.threadId == sh.threadId) = some cutoff
          ∧ msgs = s.messages.filter (fun x => x.threadId == sh.threadId && msgLeB x cutoff)
          ∧ msgs.Pairwise msgLt
          ∧ (∀ x ∈ s.messages, (x ∈ msgs ↔ x.threadId = sh.threadId ∧ msgLe x cutoff))) := by
  constructor
  · constructor
    · intro hno
      rw [resolveShare]
      rw [List.find?_eq_none.mpr (fun sh hsh h => hno sh hsh (eq_of_beq h))]
    · intro hres sh hsh htok
      have hfound : ∃ sh2, s.shares.find? (fun u => u.token == token) = some sh2 :=
        find?_isSome_of_exists _ _ ⟨sh, hsh, by simp [htok]⟩
      obtain ⟨sh2, hsh2⟩ := hfound
      obtain ⟨t, c, -, -, hok⟩ := resolveShare_found s token hWF sh2 hsh2
      rw [hok] at hres
      simp at hres
  · intro sh hfind
    obtain ⟨t, c, ht, hc, hok⟩ := resolveShare_found s token hWF sh hfind
    refine ⟨t, c, _, hok, ht,
      (by have hp := List.find?_some ht; simpa using hp : t.id = sh.threadId),
      hc, rfl, ?_, ?_⟩
    · exact (pairwise_filter_of_WF s hWF _).imp msgLt_of_wfRel
    · intro x hx
      simp only [List.mem_filter, hx, true_and, Bool.and_eq_true, beq_iff_eq, msgLeB_iff]

/-- Concrete instantiation of `C3_resolveShare_spec`: the spec's `[A,B,C,D]`
example with a share cut off at `B`; resolution returns exactly `[A,B]`. -/
theorem C3_resolveShare_spec_witness :
    (let s : Store := ⟨[⟨1, 10, none, .priv, none⟩],
                       [⟨0, 1, .user, "A", none, 1, 0⟩, ⟨1, 1, .assistant, "B", none, 2, 1⟩,
                        ⟨2, 1, .user, "C", none, 3, 2⟩, ⟨3, 1, .assistant, "D", none, 4, 3⟩],
                       [⟨77, 1, 10, 1⟩], 4, 4⟩
     ((∀ sh ∈ s.shares, sh.token ≠ 77) ↔ resolveShare 77 s = .error .NotFound)
     ∧ (∀ sh, s.shares.find? (fun u => u.token == 77) = some sh →
         ∃ t cutoff msgs, resolveShare 77 s = .ok (t, msgs)
           ∧ s.threads.find? (fun u => u.id == sh.threadId) = some t
           ∧ t.id = sh.threadId
           ∧ s.messages.find?
               (fun x => x.id == sh.sharedUpToMessageId && x.threadId == sh.threadId) = some cutoff
           ∧ msgs = s.messages.filter (fun x => x.threadId == sh.threadId && msgLeB x cutoff)
           ∧ msgs.Pairwise msgLt
           ∧ (∀ x ∈ s.messages, (x ∈ msgs ↔ x.threadId = sh.threadId ∧ msgLe x cutoff)))) :=
  C3_resolveShare_spec _ 77 (by decide)

/-! ### Streaming Response Coordinator (spec §4.2)

The coordinator runs server-side and is not part of the source tree; it is
modelled from the spec as a per-thread state machine whose requests are
processed one at a time (the server serializes conflicting writes per
thread, spec §5). -/

/-- Modelled from the spec: the per-generation state machine
`Idle -> Pending -> Streaming -> {Done, Error, Stopped}` (§4.2). -/
inductive GenState where
  | Idle : GenState
  | Pending : GenState
  | Streaming : GenState
  | Done : GenState
  | ErrorState : GenState
  | Stopped : GenState
deriving DecidableEq, Repr

/-- A generation is active while `Pending` or `Streaming`. -/
def GenState.isActive : GenState → Bool
  | .Pending => true
  | .Streaming => true
  | _ => false

/-- Modelled from the spec: the per-thread coordinator state — the
generation state plus the ordered log of output chunks forwarded to the
caller so far. -/
structure ThreadGen where
  state : GenState
  chunks : List String
deriving DecidableEq, Repr

/-- Modelled from the spec: a `postMessage`-plus-generate request hitting
the coordinator.  If a generation is already active for the thread it fails
with `Conflict` and the coordinator state is untouched; otherwise the
generation becomes `Pending` (§4.2 invariant). -/
def startGeneration (g : ThreadGen) : Except Err ThreadGen :=
  if g.state.isActive then .error .Conflict
  else .ok {g with state := .Pending}

/-- C4: while a thread's generation is `Pending` or `Streaming`, a second
`postMessage`-plus-generate request for the same thread fails with
`Conflict`, and no output of the rejected request can interleave with the
first generation: the rejected request never yields a successor state, so
the chunk log is exactly the one the active generation owns. -/
theorem C4_single_active_generation (g : ThreadGen)
    (h : g.state = .Pending ∨ g.state = .Streaming) :
    startGeneration g = .error .Conflict
      ∧ (∀ g2, startGeneration g ≠ .ok g2) := by
  have hactive : g.state.isActive = true := by
    rcases h with h | h <;> rw [h] <;> rfl
  constructor
  · rw [startGeneration, if_pos hactive]
  · intro g2
    rw [startGeneration, if_pos hactive]
    intro hcontra
    cases hcontra

/-- Concrete instantiation of `C4_single_active_generation`: a thread mid
stream with two chunks already forwarded. -/
theorem C4_single_active_generation_witness :
    (let g : ThreadGen := ⟨.Streaming, ["Hel", "lo"]⟩
     startGeneration g = .error .Conflict ∧ (∀ g2, startGeneration g ≠ .ok g2)) :=
  C4_single_active_generation ⟨.Streaming, ["Hel", "lo"]⟩ (Or.inr rfl)

/-! ### Client Cache Synchronizer (translated from the source)

The React Query cache entry under the key `["userThreads"]` is modelled as
`Option (List CThread)`: `none` is an unpopulated key (`getQueryData`
returning `undefined`).  Each mutation's `onMutate` returns the snapshot
(`context.previousThreads`) together with the optimistically updated cache;
each `onError` returns the cache after the handler ran together with a flag
recording that the error toast was shown. -/

/-- The fields of the client-side `ApiThread` the cache handlers touch. -/
structure CThread where
  id : Nat
  title : String
deriving DecidableEq, Repr

/-- From `deleteThreadMutation.onMutate` (thread-item component):
snapshot the previous value, then optimistically remove the thread
(`oldThreads ? oldThreads.filter((t) => t.id !== threadId) : []`). -/
def deleteThreadOnMutate (threadId : Nat) (cache : Option (List CThread)) :
    Option (List CThread) × Option (List CThread) :=
  (cache,
   some (match cache with
         | some oldThreads => oldThreads.filter (fun t => t.id ≠ threadId)
         | none => []))

/-- From `deleteThreadMutation.onError`: show the error toast and, only
`if (context?.previousThreads)`, write the snapshot back. -/
def deleteThreadOnError (previousThreads : Option (List CThread))
    (cache : Option (List CThread)) : Option (List CThread) × Bool :=
  match previousThreads with
  | some prev => (some prev, true)
  | none => (cache, true)

/-- From `generateTitleMutation.onMutate` (chat component): snapshot, then
optimistically set the placeholder title
(`oldThreads?.map((t) => t.id === threadId ? {...t, title: "Generating title..."} : t) ?? []`). -/
def generateTitleOnMutate (threadId : Nat) (cache : Option (List CThread)) :
    Option (List CThread) × Option (List CThread) :=
  (cache,
   some (match cache with
         | some oldThreads =>
             oldThreads.map (fun t =>
               if t.id = threadId then {t with title := "Generating title..."} else t)
         | none => []))

/-- From `generateTitleMutation.onError`: rollback guarded by
`if (context?.previousThreads)`, then the error toast. -/
def generateTitleOnError (previousThreads : Option (List CThread))
    (cache : Option (List CThread)) : Option (List CThread) × Bool :=
  match previousThreads with
  | some prev => (some prev, true)
  | none => (cache, true)

/-- From `branchOutMutation.onMutate` (use-message-logic hook): cancel the
refetch and snapshot; no optimistic write is applied. -/
def branchOutOnMutate (cache : Option (List CThread)) :
    Option (List CThread) × Option (List CThread) :=
  (cache, cache)

/-- From `branchOutMutation.onError`: rollback guarded by
`if (context?.previousThreads)`, then the error toast. -/
def branchOutOnError (previousThreads : Option (List CThread))
    (cache : Option (List CThread)) : Option (List CThread) × Bool :=
  match previousThreads with
  | some prev => (some prev, true)
  | none => (cache, true)

/-- C8 counterexample: with the `["userThreads"]` key unpopulated, a failed
thread delete does not restore the cache to the pre-mutation snapshot
(`none`): the rollback is skipped because the guard
`if (context?.previousThreads)` is false, and the key keeps the optimistic
value `some []` the server never confirmed. -/
theorem C8_rollback_counterexample :
    (deleteThreadOnError (deleteThreadOnMutate 7 none).1 (deleteThreadOnMutate 7 none).2).1
      ≠ (none : Option (List CThread))
    ∧ (deleteThreadOnError (deleteThreadOnMutate 7 none).1 (deleteThreadOnMutate 7 none).2).1
      = (deleteThreadOnMutate 7 none).2 := by
  refine ⟨?_, rfl⟩
  intro h
  cases h

/-- C8 as amended: whenever the affected cache key held a value when the
mutation started (so the snapshot is defined), a server failure restores
the key to exactly that snapshot — whatever the cache holds at failure time
— and the error is surfaced, for the thread-delete, title-generation and
branch mutations alike. -/
theorem C8_rollback_amended (tid : Nat) (prev : List CThread) (cur : Option (List CThread)) :
    (deleteThreadOnError (deleteThreadOnMutate tid (some prev)).1 cur).1 = some prev
    ∧ (deleteThreadOnError (deleteThreadOnMutate tid (some prev)).1 cur).2 = true
    ∧ (generateTitleOnError (generateTitleOnMutate tid (some prev)).1 cur).1 = some prev
    ∧ (generateTitleOnError (generateTitleOnMutate tid (some prev)).1 cur).2 = true
    ∧ (branchOutOnError (branchOutOnMutate (some prev)).1 cur).1 = some prev
    ∧ (branchOutOnError (branchOutOnMutate (some prev)).1 cur).2 = true :=
  ⟨rfl, rfl, rfl, rfl, rfl, rfl⟩

/-! ### Model resolution (translated from the source utilities file)

The TypeScript `Model` type is a union of non-empty model-name string
literals, so the truthiness test `if (cookieModel)` coincides with the
value being non-null; it is rendered here as an enumeration and the
null/undefined cases as `Option`.  `getModelFromCookie()` reads the ambient
`document.cookie`; that ambient value is passed explicitly as `docCookie`.
The module `@/lib/ai/models` loaded via `require` inside
`resolveInitialModel` is not part of the source tree, so its
`getBestAvailableDefaultModel` is an abstract parameter `best`, with `none`
standing for the caught `require`/lookup failure. -/

/-- Stand-in for the union of model-name literals. -/
inductive Model where
  | gpt4o : Model
  | claude : Model
  | gemini : Model
deriving DecidableEq, Repr

/-- From the source: a `CustomAnnotation`; only the `type = "model"` kind
carries a model, so the field is optional. -/
structure CustomAnnotation where
  type : String
  model : Option Model
deriving DecidableEq, Repr

/-- From the source: the fields of `MessageWithMetadata` that
`resolveModel` and `resolveInitialModel` read. -/
structure MessageWithMetadata where
  role : Role
  model : Option Model
  annotations : Option (List CustomAnnotation)
deriving DecidableEq, Repr

/-- From the source: `resolveModel` — direct `model` property first, then
the `type === "model"` annotation, then the model cookie
(`model ?? cookieModel ?? null`). -/
def resolveModel (message : MessageWithMetadata) (docCookie : Option Model) : Option Model :=
  let fromMessage : Option Model :=
    match message.model with
    | some m => some m
    | none =>
        ((message.annotations.getD []).find? (fun a => a.type == "model")).bind
          CustomAnnotation.model
  match fromMessage with
  | some m => some m
  | none => docCookie

/-- From the source: the per-provider API keys parameter. -/
structure ApiKeys where
  openai : Option String
  anthropic : Option String
  google : Option String
  openrouter : Option String
deriving DecidableEq, Repr

/-- From the source: `resolveInitialModel` — the cookie model wins; only
when it is null is the latest assistant message consulted (the source's
`messages.length > 0` guard is subsumed by the filtered list being empty);
only when that also yields nothing are the API keys tried, falling back to
`defaultModel`. -/
def resolveInitialModel (messages : List MessageWithMetadata) (cookieModel : Option Model)
    (defaultModel : Model) (apiKeys : Option ApiKeys) (docCookie : Option Model)
    (best : ApiKeys → Option Model) : Model :=
  match cookieModel with
  | some c => c
  | none =>
    let fromHistory : Option Model :=
      match (messages.filter (fun m => m.role == Role.assistant)).getLast? with
      | some last => resolveModel last docCookie
      | none => none
    match fromHistory with
    | some m => m
    | none =>
      match apiKeys with
      | some keys =>
        match best keys with
        | some m => m
        | none => defaultModel
      | none => defaultModel

/-- C9: a non-null cookie model is returned as-is, whatever the message
history records; the model derived from the last assistant message is used
only when the cookie model is null; and the API-key-based best model or the
default model only when both are absent. -/
theorem C9_resolveInitialModel_cookie_priority
    (messages : List MessageWithMetadata) (c defaultModel : Model)
    (apiKeys : Option ApiKeys) (docCookie : Option Model) (best : ApiKeys → Option Model) :
    resolveInitialModel messages (some c) defaultModel apiKeys docCookie best = c
    ∧ (∀ last m,
        (messages.filter (fun x => x.role == Role.assistant)).getLast? = some last →
        resolveModel last docCookie = some m →
        resolveInitialModel messages none defaultModel apiKeys docCookie best = m)
    ∧ ((messages.filter (fun x => x.role == Role.assistant)).getLast? = none →
        (∀ keys, resolveInitialModel messages none defaultModel (some keys) docCookie best
          = (best keys).getD defaultModel)
        ∧ resolveInitialModel messages none defaultModel none docCookie best = defaultModel) := by
  refine ⟨rfl, ?_, ?_⟩
  · intro last m hlast hres
    simp only [resolveInitialModel, hlast, hres]
  · intro hnone
    constructor
    · intro keys
      cases hbest : best keys <;> simp [resolveInitialModel, hnone, hbest]
    · simp only [resolveInitialModel, hnone]

/-- Concrete instantiation of `C9_resolveInitialModel_cookie_priority`: a
history whose last assistant message used `gpt4o` is overridden by a
`claude` cookie, and consulted once the cookie is absent. -/
theorem C9_resolveInitialModel_cookie_priority_witness :
    (let msgs : List MessageWithMetadata := [⟨.assistant, some .gpt4o, none⟩]
     resolveInitialModel msgs (some .claude) .gemini none none (fun _ => none) = .claude
     ∧ resolveInitialModel msgs none .gemini none none (fun _ => none) = .gpt4o) :=
  ⟨(C9_resolveInitialModel_cookie_priority _ .claude .gemini none none (fun _ => none)).1,
   (C9_resolveInitialModel_cookie_priority _ .claude .gemini none none (fun _ => none)).2.1
     ⟨.assistant, some .gpt4o, none⟩ .gpt4o rfl rfl⟩

/-! ### Cookie utilities (translated from the source utilities file)

JS strings are modelled as lists of Unicode scalar values (`List Nat`);
`ValidScalar` is the scalar-value range (`encodeURIComponent` throws on
lone surrogates, so round-tripping is claimed for scalar values only).
The platform pieces the source calls — `encodeURIComponent`,
`decodeURIComponent` and the `document.cookie` jar — are modelled after
their standard behaviour: the encoder percent-encodes the UTF-8 bytes of
every character outside the unreserved set, the decoder inverts it (a
`URIError` is collapsed to `none`), and the jar keeps one raw name/value
pair per cookie name, the pair being what precedes the first `;` of an
assigned cookie string, split at its first `=`.  Cookie attribute text
after the first `;` is parsed away by the jar; expiry and `HttpOnly`
rejection involve real time and are not modelled. -/

/-- A Unicode scalar value (JS strings that are not well-formed UTF-16 make
`encodeURIComponent` throw, so they never reach the jar). -/
def ValidScalar (c : Nat) : Prop := c < 55296 ∨ (57344 ≤ c ∧ c < 1114112)

instance (c : Nat) : Decidable (ValidScalar c) := by unfold ValidScalar; infer_instance

/-- The characters `encodeURIComponent` leaves alone:
`A-Z a-z 0-9 - _ . ! ~ * ' ( )`. -/
def uriUnreserved (c : Nat) : Bool :=
  (65 ≤ c && c ≤ 90) || (97 ≤ c && c ≤ 122) || (48 ≤ c && c ≤ 57) ||
  c == 45 || c == 95 || c == 46 || c == 33 || c == 126 || c == 42 ||
  c == 39 || c == 40 || c == 41

/-- UTF-8 bytes of a scalar value. -/
def utf8Bytes (c : Nat) : List Nat :=
  if c < 128 then [c]
  else if c < 2048 then [192 + c / 64, 128 + c % 64]
  else if c < 65536 then [224 + c / 4096, 128 + c / 64 % 64, 128 + c % 64]
  else [240 + c / 262144, 128 + c / 4096 % 64, 128 + c / 64 % 64, 128 + c % 64]

/-- Upper-case hexadecimal digit character of a value below 16. -/
def hexDigit (n : Nat) : Nat := if n < 10 then 48 + n else 55 + n

/-- The three characters of a percent-escape `%XY`. -/
def pctByte (b : Nat) : List Nat := [37, hexDigit (b / 16), hexDigit (b % 16)]

/-- Platform model: `encodeURIComponent` on scalar values — unreserved
characters pass through, every other character contributes one
percent-escape per UTF-8 byte. -/
def encodeURIComponent : List Nat → List Nat
  | [] => []
  | c :: cs =>
      (if uriUnreserved c then [c] else ((utf8Bytes c).map pctByte).flatten)
        ++ encodeURIComponent cs

/-- Value of one hexadecimal digit character (either case). -/
def hexDigitVal (c : Nat) : Option Nat :=
  if 48 ≤ c ∧ c ≤ 57 then some (c - 48)
  else if 65 ≤ c ∧ c ≤ 70 then some (c - 55)
  else if 97 ≤ c ∧ c ≤ 102 then some (c - 87)
  else none

/-- Byte value of a two-digit hexadecimal escape. -/
def hexPair (h1 h2 : Nat) : Option Nat :=
  (hexDigitVal h1).bind (fun a => (hexDigitVal h2).map (fun b => 16 * a + b))

/-- Reads one percent-escaped UTF-8 continuation byte (`0x80–0xBF`),
returning its six payload bits and the remaining characters. -/
def readCont : List Nat → Option (Nat × List Nat)
  | 37 :: h1 :: h2 :: rest =>
      match hexPair h1 h2 with
      | some b => if 128 ≤ b ∧ b < 192 then some (b - 128, rest) else none
      | none => none
  | _ => none

/-- A successful `readCont` consumes exactly three characters. -/
theorem readCont_length {l r : List Nat} {x : Nat}
    (h : readCont l = some (x, r)) : l.length = r.length + 3 := by
  unfold readCont at h
  split at h
  · rename_i h1 h2 rest
    split at h
    · split at h
      · have hr : rest = r := congrArg Prod.snd (Option.some.inj h)
        rw [← hr]
        simp
      · cases h
    · cases h
  · cases h

/-- Platform model: `decodeURIComponent` on scalar values — percent-escapes
are read as UTF-8 byte sequences, any other character passes through, and a
malformed input (the `URIError` case) yields `none`. -/
def decodeURIComponent : List Nat → Option (List Nat)
  | [] => some []
  | c :: cs =>
      if c = 37 then
        match cs with
        | h1 :: h2 :: rest =>
          match hexPair h1 h2 with
          | none => none
          | some b =>
            if b < 128 then (decodeURIComponent rest).map (b :: ·)
            else if b < 192 then none
            else if b < 224 then
              match hr1 : readCont rest with
              | some (x1, r1) =>
                  (decodeURIComponent r1).map (((b - 192) * 64 + x1) :: ·)
              | none => none
            else if b < 240 then
              match hr1 : readCont rest with
              | some (x1, r1) =>
                match hr2 : readCont r1 with
                | some (x2, r2) =>
                    (decodeURIComponent r2).map
                      (((b - 224) * 4096 + x1 * 64 + x2) :: ·)
                | none => none
              | none => none
            else if b < 248 then
              match hr1 : readCont rest with
              | some (x1, r1) =>
                match hr2 : readCont r1 with
                | some (x2, r2) =>
                  match hr3 : readCont r2 with
                  | some (x3, r3) =>
                      (decodeURIComponent r3).map
                        (((b - 240) * 262144 + x1 * 4096 + x2 * 64 + x3) :: ·)
                  | none => none
                | none => none
              | none => none
            else none
        | _ => none
      else (decodeURIComponent cs).map (c :: ·)
termination_by l => l.length
decreasing_by
  all_goals simp_wf
  all_goals
    first
    | omega
    | (have e1 := readCont_length hr1; simp at e1 ⊢; omega)
    | (have e1 := readCont_length hr1; have e2 := readCont_length hr2;
       simp at e1 e2 ⊢; omega)
    | (have e1 := readCont_length hr1; have e2 := readCont_length hr2;
       have e3 := readCont_length hr3; simp at e1 e2 e3 ⊢; omega)

/-- `hexDigitVal` inverts `hexDigit` below 16. -/
theorem hexDigitVal_hexDigit (n : Nat) (h : n < 16) :
    hexDigitVal (hexDigit n) = some n := by
  unfold hexDigit hexDigitVal
  split_ifs <;> first
    | (simp only [Option.some.injEq]; omega)
    | omega

/-- `hexPair` inverts `pctByte`'s two digit characters for a byte. -/
theorem hexPair_pct (b : Nat) (h : b < 256) :
    hexPair (hexDigit (b / 16)) (hexDigit (b % 16)) = some b := by
  rw [hexPair, hexDigitVal_hexDigit _ (by omega), hexDigitVal_hexDigit _ (by omega)]
  show some (16 * (b / 16) + b % 16) = some b
  rw [Option.some.injEq]
  omega

/-- A non-percent character is passed through by the decoder. -/
theorem decode_cons_notPct (c : Nat) (cs : List Nat) (hc : c ≠ 37) :
    decodeURIComponent (c :: cs) = (decodeURIComponent cs).map (c :: ·) := by
  rw [decodeURIComponent.eq_def]
  dsimp only
  rw [if_neg hc]

/-- Decoding an ASCII percent-escape. -/
theorem decode_pct1 (b : Nat) (hb : b < 128) (tail : List Nat) :
    decodeURIComponent (pctByte b ++ tail) = (decodeURIComponent tail).map (b :: ·) := by
  show decodeURIComponent (37 :: hexDigit (b / 16) :: hexDigit (b % 16) :: tail) = _
  rw [decodeURIComponent.eq_def]
  dsimp only
  rw [if_pos rfl]
  rw [hexPair_pct b (by omega)]
  dsimp only
  rw [if_pos hb]

/-- `readCont` reads one percent-escaped continuation byte. -/
theorem readCont_pct (b : Nat) (hb : 128 ≤ b ∧ b < 192) (tail : List Nat) :
    readCont (pctByte b ++ tail) = some (b - 128, tail) := by
  show readCont (37 :: hexDigit (b / 16) :: hexDigit (b % 16) :: tail) = _
  rw [readCont.eq_def]
  dsimp only
  rw [hexPair_pct b (by omega)]
  dsimp only
  rw [if_pos hb]

/-- Decoding a two-byte percent-escaped UTF-8 sequence. -/
theorem decode_pct2 (b0 b1 : Nat) (h0 : 192 ≤ b0 ∧ b0 < 224) (h1 : 128 ≤ b1 ∧ b1 < 192)
    (tail : List Nat) :
    decodeURIComponent (pctByte b0 ++ (pctByte b1 ++ tail))
      = (decodeURIComponent tail).map (((b0 - 192) * 64 + (b1 - 128)) :: ·) := by
  show decodeURIComponent
      (37 :: hexDigit (b0 / 16) :: hexDigit (b0 % 16) :: (pctByte b1 ++ tail)) = _
  rw [decodeURIComponent.eq_def]
  dsimp only
  rw [if_pos rfl]
  rw [hexPair_pct b0 (by omega)]
  dsimp only
  rw [if_neg (by omega), if_neg (by omega), if_pos (by omega)]
  rw [readCont_pct b1 h1]

/-- Decoding a three-byte percent-escaped UTF-8 sequence. -/
theorem decode_pct3 (b0 b1 b2 : Nat) (h0 : 224 ≤ b0 ∧ b0 < 240)
    (h1 : 128 ≤ b1 ∧ b1 < 192) (h2 : 128 ≤ b2 ∧ b2 < 192) (tail : List Nat) :
    decodeURIComponent (pctByte b0 ++ (pctByte b1 ++ (pctByte b2 ++ tail)))
      = (decodeURIComponent tail).map
          (((b0 - 224) * 4096 + (b1 - 128) * 64 + (b2 - 128)) :: ·) := by
  show decodeURIComponent
      (37 :: hexDigit (b0 / 16) :: hexDigit (b0 % 16) :: (pctByte b1 ++ (pctByte b2 ++ tail))) = _
  rw [decodeURIComponent.eq_def]
  dsimp only
  rw [if_pos rfl]
  rw [hexPair_pct b0 (by omega)]
  dsimp only
  rw [if_neg (by omega), if_neg (by omega), if_neg (by omega), if_pos (by omega)]
  rw [readCont_pct b1 h1]
  dsimp only
  rw [readCont_pct b2 h2]

/-- Decoding a four-byte percent-escaped UTF-8 sequence. -/
theorem decode_pct4 (b0 b1 b2 b3 : Nat) (h0 : 240 ≤ b0 ∧ b0 < 248)
    (h1 : 128 ≤ b1 ∧ b1 < 192) (h2 : 128 ≤ b2 ∧ b2 < 192) (h3 : 128 ≤ b3 ∧ b3 < 192)
    (tail : List Nat) :
    decodeURIComponent (pctByte b0 ++ (pctByte b1 ++ (pctByte b2 ++ (pctByte b3 ++ tail))))
      = (decodeURIComponent tail).map
          (((b0 - 240) * 262144 + (b1 - 128) * 4096 + (b2 - 128) * 64 + (b3 - 128)) :: ·) := by
  show decodeURIComponent
      (37 :: hexDigit (b0 / 16) :: hexDigit (b0 % 16)
        :: (pctByte b1 ++ (pctByte b2 ++ (pctByte b3 ++ tail)))) = _
  rw [decodeURIComponent.eq_def]
  dsimp only
  rw [if_pos rfl]
  rw [hexPair_pct b0 (by omega)]
  dsimp only
  rw [if_neg (by omega), if_neg (by omega), if_neg (by omega), if_neg (by omega),
      if_pos (by omega)]
  rw [readCont_pct b1 h1]
  dsimp only
  rw [readCont_pct b2 h2]
  dsimp only
  rw [readCont_pct b3 h3]

/-- Decoding the encoder's output for one scalar value peels off exactly
that scalar. -/
theorem decode_encode_block (c : Nat) (hc : ValidScalar c) (tail : List Nat) :
    decodeURIComponent
        ((if uriUnreserved c then [c] else ((utf8Bytes c).map pctByte).flatten) ++ tail)
      = (decodeURIComponent tail).map (c :: ·) := by
  by_cases hu : uriUnreserved c
  · rw [if_pos hu]
    have hc37 : c ≠ 37 := by
      intro h
      rw [h] at hu
      simp [uriUnreserved] at hu
    exact decode_cons_notPct c tail hc37
  · rw [if_neg hu]
    have hval : c < 1114112 := by
      rcases hc with h | h
      · omega
      · exact h.2
    unfold utf8Bytes
    split_ifs with h1 h2 h3
    · simp only [List.map_cons, List.map_nil, List.flatten_cons, List.flatten_nil,
        List.append_nil]
      exact decode_pct1 c h1 tail
    · simp only [List.map_cons, List.map_nil, List.flatten_cons, List.flatten_nil,
        List.append_nil, List.append_assoc]
      rw [decode_pct2 (192 + c / 64) (128 + c % 64) (by omega) (by omega)]
      have he : (192 + c / 64 - 192) * 64 + (128 + c % 64 - 128) = c := by omega
      rw [he]
    · simp only [List.map_cons, List.map_nil, List.flatten_cons, List.flatten_nil,
        List.append_nil, List.append_assoc]
      rw [decode_pct3 (224 + c / 4096) (128 + c / 64 % 64) (128 + c % 64)
            (by omega) (by omega) (by omega)]
      have he : (224 + c / 4096 - 224) * 4096 + (128 + c / 64 % 64 - 128) * 64
          + (128 + c % 64 - 128) = c := by omega
      rw [he]
    · simp only [List.map_cons, List.map_nil, List.flatten_cons, List.flatten_nil,
        List.append_nil, List.append_assoc]
      rw [decode_pct4 (240 + c / 262144) (128 + c / 4096 % 64) (128 + c / 64 % 64)
            (128 + c % 64) (by omega) (by omega) (by omega) (by omega)]
      have he : (240 + c / 262144 - 240) * 262144 + (128 + c / 4096 % 64 - 128) * 4096
          + (128 + c / 64 % 64 - 128) * 64 + (128 + c % 64 - 128) = c := by omega
      rw [he]

/-- Decoding an encoded string followed by anything decodes the string and
continues with the rest. -/
theorem decode_encode_append (s : List Nat) (h : ∀ c ∈ s, ValidScalar c) (tail : List Nat) :
    decodeURIComponent (encodeURIComponent s ++ tail)
      = (decodeURIComponent tail).map (fun r => s ++ r) := by
  induction s with
  | nil =>
    simp [encodeURIComponent]
  | cons c cs ih =>
    rw [encodeURIComponent]
    rw [List.append_assoc]
    rw [decode_encode_block c (h c (List.mem_cons_self c cs)) _]
    rw [ih (fun x hx => h x (List.mem_cons_of_mem c hx))]
    rw [Option.map_map]
    rfl

/-- `decodeURIComponent` inverts `encodeURIComponent` on scalar strings. -/
theorem decode_encode (s : List Nat) (h : ∀ c ∈ s, ValidScalar c) :
    decodeURIComponent (encodeURIComponent s) = some s := by
  have hd := decode_encode_append s h []
  rw [List.append_nil] at hd
  rw [hd]
  simp [decodeURIComponent]

/-- From the source: the `CookieOptions` parameter of `setCookie`.  Dates
and numbers only ever reach the cookie string as rendered text, so
`expires` (a `toUTCString` result) and `maxAge` (a decimal rendering) are
carried as character lists. -/
structure CookieOptions where
  expires : Option (List Nat)
  maxAge : Option (List Nat)
  path : List Nat
  domain : Option (List Nat)
  secure : Bool
  sameSite : List Nat
  httpOnly : Bool
deriving DecidableEq, Repr

/-- The source's destructuring defaults: `path = "/"`, `sameSite = "lax"`. -/
def CookieOptions.defaults : CookieOptions :=
  ⟨none, none, [47], none, false, [108, 97, 120], false⟩

/-- `";expires=" ++ e` when the option is present. -/
def attrExpires : Option (List Nat) → List Nat
  | some e => [59, 101, 120, 112, 105, 114, 101, 115, 61] ++ e
  | none => []

/-- `";max-age=" ++ a` when the option is present (`maxAge !== undefined`). -/
def attrMaxAge : Option (List Nat) → List Nat
  | some a => [59, 109, 97, 120, 45, 97, 103, 101, 61] ++ a
  | none => []

/-- `";path=" ++ p` when `path` is truthy (non-empty). -/
def attrPath (p : List Nat) : List Nat :=
  if p = [] then [] else [59, 112, 97, 116, 104, 61] ++ p

/-- `";domain=" ++ d` when `domain` is truthy (present and non-empty). -/
def attrDomain : Option (List Nat) → List Nat
  | some d => if d = [] then [] else [59, 100, 111, 109, 97, 105, 110, 61] ++ d
  | none => []

/-- `";secure"` when requested. -/
def attrSecure (b : Bool) : List Nat :=
  if b then [59, 115, 101, 99, 117, 114, 101] else []

/-- `";samesite=" ++ s` when `sameSite` is truthy (non-empty). -/
def attrSameSite (s : List Nat) : List Nat :=
  if s = [] then [] else [59, 115, 97, 109, 101, 115, 105, 116, 101, 61] ++ s

/-- `";httponly"` when requested. -/
def attrHttpOnly (b : Bool) : List Nat :=
  if b then [59, 104, 116, 116, 112, 111, 110, 108, 121] else []

/-- The attribute text the source appends after `name=value`, in source
order. -/
def attrChars (o : CookieOptions) : List Nat :=
  attrExpires o.expires ++ (attrMaxAge o.maxAge ++ (attrPath o.path ++
    (attrDomain o.domain ++ (attrSecure o.secure ++
      (attrSameSite o.sameSite ++ attrHttpOnly o.httpOnly)))))

/-- The browser cookie jar: one raw name/value pair per cookie name. -/
abbrev Jar : Type := List (List Nat × List Nat)

/-- Platform model: how an assignment to `document.cookie` is parsed — the
text before the first `;` is the pair, split at its first `=`. -/
def cookiePairOf (s : List Nat) : List Nat × List Nat :=
  let pair := s.takeWhile (fun c => c != 59)
  (pair.takeWhile (fun c => c != 61), (pair.dropWhile (fun c => c != 61)).drop 1)

/-- Platform model: storing an assigned cookie string replaces the cookie
with the same name. -/
def jarSet (s : List Nat) (jar : Jar) : Jar :=
  let p := cookiePairOf s
  List.filter (fun e => e.1 != p.1) jar ++ [p]

/-- From the source: `setCookie` — a no-op without a `document`; otherwise
it assigns `encodeURIComponent(name) ++ "=" ++ encodeURIComponent(value)`
followed by the attribute text to `document.cookie`. -/
def setCookie (name value : List Nat) (o : CookieOptions) (doc : Option Jar) : Option Jar :=
  match doc with
  | none => none
  | some jar =>
      some (jarSet (encodeURIComponent name ++ 61 ::
        (encodeURIComponent value ++ attrChars o)) jar)

/-- The source's `cookie.trim()`, restricted to the space character the
cookie-string join introduces. -/
def trimSpaces (l : List Nat) : List Nat :=
  (((l.dropWhile (fun c => c == 32)).reverse).dropWhile (fun c => c == 32)).reverse

/-- The source's `cookie.indexOf(nameEQ) === 0` test. -/
def startsWithL : List Nat → List Nat → Bool
  | [], _ => true
  | _ :: _, [] => false
  | p :: ps, c :: cs => p == c && startsWithL ps cs

/-- From the source: the loop of `getCookie` over `document.cookie.split(";")`
— trim each entry, return the decoded remainder of the first entry starting
with `nameEQ` (a `URIError` from `decodeURIComponent` is collapsed to
`none`). -/
def findEntry (nameEQ : List Nat) : List (List Nat) → Option (List Nat)
  | [] => none
  | e :: rest =>
      let c := trimSpaces e
      if startsWithL nameEQ c then
        match decodeURIComponent (c.drop nameEQ.length) with
        | some v => some v
        | none => none
      else findEntry nameEQ rest

/-- From the source: `getCookie` — `null` without a `document`; otherwise
the loop above over the jar's entries rendered as `name=value` strings. -/
def getCookie (name : List Nat) (doc : Option Jar) : Option (List Nat) :=
  match doc with
  | none => none
  | some jar =>
      findEntry (encodeURIComponent name ++ [61])
        (jar.map (fun e => e.1 ++ 61 :: e.2))

/-- UTF-8 bytes of a scalar value are bytes. -/
theorem utf8Bytes_lt (c : Nat) (h : c < 1114112) : ∀ b ∈ utf8Bytes c, b < 256 := by
  unfold utf8Bytes
  split_ifs <;> intro b hb <;> simp only [List.mem_cons, List.not_mem_nil, or_false] at hb <;>
    rcases hb with rfl | hb <;> omega

/-- A hexadecimal digit character is neither `;` nor `=` nor a space. -/
theorem hexDigit_safe (n : Nat) (h : n < 16) :
    hexDigit n ≠ 59 ∧ hexDigit n ≠ 61 ∧ hexDigit n ≠ 32 := by
  unfold hexDigit
  split_ifs <;> omega

/-- No character of an encoded scalar string is `;`, `=` or a space. -/
theorem encode_chars (s : List Nat) (hs : ∀ c ∈ s, ValidScalar c) :
    ∀ x ∈ encodeURIComponent s, x ≠ 59 ∧ x ≠ 61 ∧ x ≠ 32 := by
  induction s with
  | nil => intro x hx; simp [encodeURIComponent] at hx
  | cons c cs ih =>
    intro x hx
    rw [encodeURIComponent] at hx
    rcases List.mem_append.mp hx with hx | hx
    · by_cases hu : uriUnreserved c
      · rw [if_pos hu] at hx
        simp only [List.mem_singleton] at hx
        subst hx
        simp only [uriUnreserved, Bool.or_eq_true, Bool.and_eq_true, decide_eq_true_eq,
          beq_iff_eq] at hu
        omega
      · rw [if_neg hu] at hx
        simp only [List.mem_flatten, List.mem_map] at hx
        obtain ⟨l, ⟨b, hb, rfl⟩, hxl⟩ := hx
        have hb256 : b < 256 := by
          have hcv : c < 1114112 := by
            rcases hs c (List.mem_cons_self c cs) with h | h
            · omega
            · exact h.2
          exact utf8Bytes_lt c hcv b hb
        simp only [pctByte, List.mem_cons, List.not_mem_nil, or_false] at hxl
        rcases hxl with rfl | rfl | rfl
        · omega
        · exact hexDigit_safe _ (by omega)
        · exact hexDigit_safe _ (by omega)
    · exact ih (fun y hy => hs y (List.mem_cons_of_mem c hy)) x hx

/-- Lists that are empty or start with `;`, closed under append. -/
theorem semi_append {a b : List Nat} (ha : a = [] ∨ a.head? = some 59)
    (hb : b = [] ∨ b.head? = some 59) :
    a ++ b = [] ∨ (a ++ b).head? = some 59 := by
  rcases ha with rfl | ha
  · simpa using hb
  · cases a with
    | nil => simp at ha
    | cons x xs =>
      right
      simpa using ha

/-- The attribute text is empty or starts with `;`. -/
theorem attrChars_semi (o : CookieOptions) :
    attrChars o = [] ∨ (attrChars o).head? = some 59 := by
  have h1 : attrExpires o.expires = [] ∨ (attrExpires o.expires).head? = some 59 := by
    cases o.expires <;> simp [attrExpires]
  have h2 : attrMaxAge o.maxAge = [] ∨ (attrMaxAge o.maxAge).head? = some 59 := by
    cases o.maxAge <;> simp [attrMaxAge]
  have h3 : attrPath o.path = [] ∨ (attrPath o.path).head? = some 59 := by
    unfold attrPath
    split_ifs <;> simp
  have h4 : attrDomain o.domain = [] ∨ (attrDomain o.domain).head? = some 59 := by
    cases o.domain with
    | none => simp [attrDomain]
    | some d => by_cases hd : d = [] <;> simp [attrDomain, hd]
  have h5 : attrSecure o.secure = [] ∨ (attrSecure o.secure).head? = some 59 := by
    cases o.secure <;> simp [attrSecure]
  have h6 : attrSameSite o.sameSite = [] ∨ (attrSameSite o.sameSite).head? = some 59 := by
    unfold attrSameSite
    split_ifs <;> simp
  have h7 : attrHttpOnly o.httpOnly = [] ∨ (attrHttpOnly o.httpOnly).head? = some 59 := by
    cases o.httpOnly <;> simp [attrHttpOnly]
  exact semi_append h1 (semi_append h2 (semi_append h3 (semi_append h4
    (semi_append h5 (semi_append h6 h7)))))

/-- `takeWhile` walks through a prefix that satisfies the predicate. -/
theorem takeWhile_append_all {p : Nat → Bool} {a : List Nat} (b : List Nat)
    (ha : ∀ c ∈ a, p c = true) :
    (a ++ b).takeWhile p = a ++ b.takeWhile p := by
  induction a with
  | nil => simp
  | cons x xs ih =>
    rw [List.cons_append, List.takeWhile_cons, if_pos (ha x (List.mem_cons_self x xs)),
      ih (fun c hc => ha c (List.mem_cons_of_mem x hc)), List.cons_append]

/-- `dropWhile` discards a prefix that satisfies the predicate. -/
theorem dropWhile_append_all {p : Nat → Bool} {a : List Nat} (b : List Nat)
    (ha : ∀ c ∈ a, p c = true) :
    (a ++ b).dropWhile p = b.dropWhile p := by
  induction a with
  | nil => simp
  | cons x xs ih =>
    rw [List.cons_append, List.dropWhile_cons, if_pos (ha x (List.mem_cons_self x xs)),
      ih (fun c hc => ha c (List.mem_cons_of_mem x hc))]

/-- Parsing the assigned cookie string recovers the encoded name and value:
the attribute text is cut off by its leading `;`, the name by the `=`. -/
theorem cookiePairOf_assigned (n v a : List Nat)
    (hn : ∀ c ∈ n, c ≠ 59 ∧ c ≠ 61) (hv : ∀ c ∈ v, c ≠ 59)
    (ha : a = [] ∨ a.head? = some 59) :
    cookiePairOf (n ++ 61 :: (v ++ a)) = (n, v) := by
  have hpair : (n ++ 61 :: (v ++ a)).takeWhile (fun c => c != 59) = n ++ 61 :: v := by
    rw [takeWhile_append_all _ (fun c hc => by simpa using (hn c hc).1)]
    rw [List.takeWhile_cons]
    simp only [show ((61 : Nat) != 59) = true from rfl, if_true]
    rw [takeWhile_append_all _ (fun c hc => by simpa using hv c hc)]
    rcases ha with rfl | ha
    · simp
    · cases a with
      | nil => simp at ha
      | cons x xs =>
        simp only [List.head?_cons, Option.some.injEq] at ha
        subst ha
        simp [List.takeWhile_cons]
  unfold cookiePairOf
  rw [hpair]
  rw [Prod.mk.injEq]
  constructor
  · rw [takeWhile_append_all _ (fun c hc => by simpa using (hn c hc).2)]
    simp [List.takeWhile_cons]
  · rw [dropWhile_append_all _ (fun c hc => by simpa using (hn c hc).2)]
    simp [List.dropWhile_cons]

/-- A list starts with itself. -/
theorem startsWithL_append_self (p rest : List Nat) :
    startsWithL p (p ++ rest) = true := by
  induction p with
  | nil => rfl
  | cons x xs ih => simp [startsWithL, ih]

/-- If `a= ` is a prefix of the entry `b=t` and neither `a` nor `b`
contains `=`, the names coincide. -/
theorem startsWithL_name_eq (a : List Nat) :
    ∀ b t : List Nat, 61 ∉ a → 61 ∉ b →
      startsWithL (a ++ [61]) (b ++ 61 :: t) = true → a = b := by
  induction a with
  | nil =>
    intro b t _ hb h
    cases b with
    | nil => rfl
    | cons y ys =>
      simp only [List.nil_append, List.cons_append, startsWithL, Bool.and_eq_true,
        beq_iff_eq] at h
      exact absurd (h.1 ▸ List.mem_cons_self y ys) (by simpa [h.1] using hb)
  | cons x xs ih =>
    intro b t ha hb h
    cases b with
    | nil =>
      simp only [List.cons_append, List.nil_append, startsWithL, Bool.and_eq_true,
        beq_iff_eq] at h
      exact absurd (h.1 ▸ List.mem_cons_self x xs) (by simpa [h.1] using ha)
    | cons y ys =>
      simp only [List.cons_append, startsWithL, Bool.and_eq_true, beq_iff_eq] at h
      have hxs : xs = ys :=
        ih ys t (fun hc => ha (List.mem_cons_of_mem x hc))
          (fun hc => hb (List.mem_cons_of_mem y hc)) h.2
      rw [h.1, hxs]

/-- `dropWhile` cannot pass an element that fails the predicate. -/
theorem dropWhile_mid {p : Nat → Bool} (a : List Nat) (x : Nat) (b : List Nat)
    (hx : p x = false) :
    (a ++ x :: b).dropWhile p = a.dropWhile p ++ x :: b := by
  induction a with
  | nil =>
    simp only [List.nil_append, List.dropWhile_nil]
    rw [List.dropWhile_cons, if_neg (by simp [hx])]
  | cons y ys ih =>
    by_cases hy : p y = true
    · rw [List.cons_append, List.dropWhile_cons, if_pos hy, ih,
        List.dropWhile_cons, if_pos hy]
    · rw [List.cons_append, List.dropWhile_cons, if_neg hy,
        List.dropWhile_cons, if_neg hy, List.cons_append]

/-- `dropWhile` is the identity when the head already fails. -/
theorem dropWhile_eq_self_of_head (p : Nat → Bool) (x : Nat) (xs : List Nat)
    (hx : p x = false) : (x :: xs).dropWhile p = x :: xs := by
  rw [List.dropWhile_cons, if_neg (by simp [hx])]

/-- Trimming an entry `n=v` whose name has no `=` and no space keeps the
`n=` prefix and only trims the value. -/
theorem trim_entry (n v : List Nat) (hn32 : 32 ∉ n) :
    ∃ v2, trimSpaces (n ++ 61 :: v) = n ++ 61 :: v2 := by
  have hfront : (n ++ 61 :: v).dropWhile (fun c => c == 32) = n ++ 61 :: v := by
    cases n with
    | nil =>
      simp only [List.nil_append]
      exact dropWhile_eq_self_of_head _ 61 v rfl
    | cons z zs =>
      rw [List.cons_append]
      have hz : z ≠ 32 := fun h => hn32 (h ▸ List.mem_cons_self z zs)
      rw [dropWhile_eq_self_of_head _ z (zs ++ 61 :: v) (by simp [hz])]
  refine ⟨((v.reverse.dropWhile (fun c => c == 32)).reverse), ?_⟩
  unfold trimSpaces
  rw [hfront]
  have hrev : (n ++ 61 :: v).reverse = v.reverse ++ 61 :: n.reverse := by
    rw [List.reverse_append, List.reverse_cons, List.append_assoc]
    rfl
  rw [hrev, dropWhile_mid _ _ _ (by simp)]
  rw [List.reverse_append, List.reverse_cons, List.reverse_reverse, List.append_assoc]
  rfl

/-- Trimming a list without spaces is the identity. -/
theorem trimSpaces_eq_self {l : List Nat} (h : ∀ c ∈ l, c ≠ 32) :
    trimSpaces l = l := by
  have hdrop : ∀ m : List Nat, (∀ c ∈ m, c ≠ 32) → m.dropWhile (fun c => c == 32) = m := by
    intro m hm
    cases m with
    | nil => rfl
    | cons y ys =>
      exact dropWhile_eq_self_of_head _ y ys (by simp [hm y (List.mem_cons_self y ys)])
  unfold trimSpaces
  rw [hdrop l h, hdrop l.reverse (fun c hc => h c (List.mem_reverse.mp hc)), List.reverse_reverse]

/-- `findEntry` walks past entries that do not carry the cookie name. -/
theorem findEntry_append_skip (nameEQ : List Nat) (l rest : List (List Nat))
    (h : ∀ e ∈ l, startsWithL nameEQ (trimSpaces e) = false) :
    findEntry nameEQ (l ++ rest) = findEntry nameEQ rest := by
  induction l with
  | nil => rfl
  | cons e es ih =>
    rw [List.cons_append, findEntry]
    rw [if_neg (by simp [h e (List.mem_cons_self e es)])]
    exact ih (fun x hx => h x (List.mem_cons_of_mem e hx))

/-- C10: in a browser environment, `setCookie` followed by `getCookie` on
the same name returns exactly the stored value — including names and values
containing `=`, `;`, spaces or non-ASCII characters, because the encoder
and decoder match — and without a `document`, `setCookie` is a no-op while
`getCookie` returns null. -/
theorem C10_cookie_roundtrip (name value : List Nat)
    (hname : ∀ c ∈ name, ValidScalar c) (hvalue : ∀ c ∈ value, ValidScalar c)
    (o : CookieOptions) (jar : Jar) (hjar : ∀ e ∈ jar, 61 ∉ e.1 ∧ 32 ∉ e.1) :
    getCookie name (setCookie name value o (some jar)) = some value
    ∧ setCookie name value o none = none
    ∧ getCookie name none = none := by
  refine ⟨?_, rfl, rfl⟩
  have hencN := encode_chars name hname
  have hencV := encode_chars value hvalue
  have hpair : cookiePairOf (encodeURIComponent name ++ 61 ::
      (encodeURIComponent value ++ attrChars o))
      = (encodeURIComponent name, encodeURIComponent value) :=
    cookiePairOf_assigned _ _ _
      (fun c hc => ⟨(hencN c hc).1, (hencN c hc).2.1⟩)
      (fun c hc => (hencV c hc).1)
      (attrChars_semi o)
  rw [setCookie, getCookie, jarSet]
  rw [hpair]
  rw [List.map_append]
  rw [findEntry_append_skip]
  · rw [List.map_cons, List.map_nil, findEntry]
    have htrim : trimSpaces (encodeURIComponent name ++ 61 :: encodeURIComponent value)
        = encodeURIComponent name ++ 61 :: encodeURIComponent value := by
      refine trimSpaces_eq_self ?_
      intro c hc
      rcases List.mem_append.mp hc with hc | hc
      · exact (hencN c hc).2.2
      · rcases List.mem_cons.mp hc with rfl | hc
        · omega
        · exact (hencV c hc).2.2
    rw [htrim]
    rw [List.append_cons (encodeURIComponent name) 61 (encodeURIComponent value)]
    rw [if_pos (startsWithL_append_self _ _)]
    rw [List.drop_left]
    rw [decode_encode value hvalue]
  · intro e he
    simp only [List.mem_map] at he
    obtain ⟨p, hp, rfl⟩ := he
    have hpjar := List.mem_of_mem_filter hp
    have hpne : p.1 ≠ encodeURIComponent name := by
      have := List.of_mem_filter hp
      simpa using this
    obtain ⟨v2, hv2⟩ := trim_entry p.1 p.2 (hjar p hpjar).2
    rw [hv2]
    by_contra hcontra
    rw [Bool.not_eq_false] at hcontra
    exact hpne (startsWithL_name_eq (encodeURIComponent name) p.1 v2
      (fun hc => absurd rfl (hencN 61 hc).2.1) (hjar p hpjar).1 hcontra).symm

/-- Concrete instantiation of `C10_cookie_roundtrip`: the name contains `=`
and `é`, the value contains `;`, a space and `A`, and the jar already holds
another cookie. -/
theorem C10_cookie_roundtrip_witness :
    (∀ c ∈ [61, 233], ValidScalar c) ∧ (∀ c ∈ [59, 32, 65], ValidScalar c)
    ∧ (∀ e ∈ ([([110], [118])] : Jar), 61 ∉ e.1 ∧ 32 ∉ e.1)
    ∧ (getCookie [61, 233] (setCookie [61, 233] [59, 32, 65] CookieOptions.defaults
          (some [([110], [118])])) = some [59, 32, 65]
        ∧ setCookie [61, 233] [59, 32, 65] CookieOptions.defaults none = none
        ∧ getCookie [61, 233] none = none) :=
  ⟨by decide, by decide, by decide,
   C10_cookie_roundtrip [61, 233] [59, 32, 65] (by decide) (by decide)
     CookieOptions.defaults [([110], [118])] (by decide)⟩

end OneChat
